import Mathlib

set_option maxHeartbeats 1000000
set_option maxRecDepth 8000

namespace GSY

/-! Shallow embedding of the generic shunting-yard crate
(src/lib.rs, src/op.rs, src/validate.rs), followed by theorems about the
conversion engine and the token-stream validator. -/

/-- Input tokens, mirroring `InputToken` in src/lib.rs. -/
inductive InputToken (V F O : Type) where
  | Value : V → InputToken V F O
  | LeftParen : InputToken V F O
  | RightParen : InputToken V F O
  | Function : F → InputToken V F O
  | ArgSeperator : InputToken V F O
  | Operator : O → InputToken V F O
  deriving DecidableEq

/-- Pending-stack entries, mirroring the private `StackToken` in src/lib.rs.
The left-paren marker records the source position of its token. -/
inductive StackToken (F O : Type) where
  | LeftParen : Nat → StackToken F O
  | Function : F → StackToken F O
  | Operator : O → StackToken F O
  deriving DecidableEq

/-- Output tokens, mirroring `OutputToken` in src/lib.rs. -/
inductive OutputToken (V F O : Type) where
  | Value : V → OutputToken V F O
  | Function : F → OutputToken V F O
  | Operator : O → OutputToken V F O
  deriving DecidableEq

/-- Error type of the conversion engine, mirroring `ParenMissmatchError` in src/lib.rs. -/
structure ParenMissmatchError where
  pos : Nat
  deriving DecidableEq

variable {V F O : Type}

/-- What a pending stack entry contributes when it is popped and emitted: a
left-paren marker is never emitted, pending functions and operators are. -/
def stackOut : StackToken F O → Option (OutputToken V F O)
  | StackToken.LeftParen _ => none
  | StackToken.Function f => some (OutputToken.Function f)
  | StackToken.Operator o => some (OutputToken.Operator o)

/-- The `while let Some(StackToken::Operator(_)) = stack.last()` loops of the
`RightParen` and `ArgSeperator` arms in ` to_postfix` (src/lib.rs): pop and emit
every pending operator until a non-operator is on top.  The Rust `Vec` top is
the list head here. -/
def popOps : List (StackToken F O) → List (OutputToken V F O) →
    List (StackToken F O) × List (OutputToken V F O)
  | StackToken.Operator o :: rest, out => popOps rest (out ++ [OutputToken.Operator o])
  | stack, out => (stack, out)

/-- The operator-precedence loop of the `Operator(o1)` arm in ` to_postfix`
(src/lib.rs): pop and emit `o2` while `o2.precedence() > o1.precedence()` or the
precedences are equal and `o1` is left associative. -/
def popWhileHigher (prec : O → Nat) (la : O → Bool) (o1 : O) :
    List (StackToken F O) → List (OutputToken V F O) →
    List (StackToken F O) × List (OutputToken V F O)
  | StackToken.Operator o2 :: rest, out =>
    if prec o2 > prec o1 ∨ (prec o1 = prec o2 ∧ la o1 = true) then
      popWhileHigher prec la o1 rest (out ++ [OutputToken.Operator o2])
    else (StackToken.Operator o2 :: rest, out)
  | stack, out => (stack, out)

/-- Body of the non-error `RightParen` arm of ` to_postfix` (src/lib.rs) after
the paren-count bookkeeping: pop and emit pending operators, then `stack.pop()`
the top entry unconditionally, then pop and emit a `Function` entry if one is
now on top. -/
def rightParenStep (stack : List (StackToken F O)) (out : List (OutputToken V F O)) :
    List (StackToken F O) × List (OutputToken V F O) :=
  let p := popOps stack out
  match p.1.tail with
  | StackToken.Function f :: rest2 => (rest2, p.2 ++ [OutputToken.Function f])
  | other => (other, p.2)

/-- End-of-input drain of ` to_postfix` (src/lib.rs): the pending stack is walked
top first; a remaining left-paren marker aborts with its recorded position,
remaining functions and operators are emitted. -/
def drainStack : List (StackToken F O) → List (OutputToken V F O) →
    Except ParenMissmatchError (List (OutputToken V F O))
  | [], out => Except.ok out
  | StackToken.LeftParen p :: _, _ => Except.error ⟨p⟩
  | StackToken.Function f :: rest, out => drainStack rest (out ++ [OutputToken.Function f])
  | StackToken.Operator o :: rest, out => drainStack rest (out ++ [OutputToken.Operator o])

/-- Main loop of ` to_postfix` (src/lib.rs), one Rust loop iteration per list
element; `pos` is the `enumerate` counter, `pc` the `isize` parenthesis
counter. -/
def toPostfixFrom (prec : O → Nat) (la : O → Bool) :
    List (InputToken V F O) → Nat → Int → List (StackToken F O) →
    List (OutputToken V F O) → Except ParenMissmatchError (List (OutputToken V F O))
  | [], _, _, stack, out => drainStack stack out
  | InputToken.Value v :: rest, pos, pc, stack, out =>
      toPostfixFrom prec la rest (pos + 1) pc stack (out ++ [OutputToken.Value v])
  | InputToken.LeftParen :: rest, pos, pc, stack, out =>
      toPostfixFrom prec la rest (pos + 1) (pc + 1) (StackToken.LeftParen pos :: stack) out
  | InputToken.RightParen :: rest, pos, pc, stack, out =>
      if pc = 0 then Except.error ⟨pos⟩
      else
        toPostfixFrom prec la rest (pos + 1) (pc - 1)
          (rightParenStep stack out).1 (rightParenStep stack out).2
  | InputToken.Function f :: rest, pos, pc, stack, out =>
      toPostfixFrom prec la rest (pos + 1) pc (StackToken.Function f :: stack) out
  | InputToken.ArgSeperator :: rest, pos, pc, stack, out =>
      toPostfixFrom prec la rest (pos + 1) pc (popOps stack out).1 (popOps stack out).2
  | InputToken.Operator o1 :: rest, pos, pc, stack, out =>
      toPostfixFrom prec la rest (pos + 1) pc
        (StackToken.Operator o1 :: (popWhileHigher prec la o1 stack out).1)
        (popWhileHigher prec la o1 stack out).2

/-- The public conversion ` to_postfix` of src/lib.rs, parameterised by the two
methods of the `Operator` trait. -/
def to_postfix (prec : O → Nat) (la : O → Bool) (input : List (InputToken V F O)) :
    Except ParenMissmatchError (List (OutputToken V F O)) :=
  toPostfixFrom prec la input 0 0 [] []

/-- The `MathOperator` enum of src/op.rs. -/
inductive MathOperator where
  | Add | Sub | Mul | Div | Exponent
  deriving DecidableEq

/-- Precedence table of `MathOperator` in src/op.rs. -/
def MathOperator.precedence : MathOperator → Nat
  | MathOperator.Add => 11
  | MathOperator.Sub => 11
  | MathOperator.Mul => 12
  | MathOperator.Div => 12
  | MathOperator.Exponent => 13

/-- Associativity of `MathOperator` in src/op.rs: every operator except
`Exponent` is left associative. -/
def MathOperator.is_left_associative : MathOperator → Bool
  | MathOperator.Exponent => false
  | _ => true

/-! Embedding of the validator (src/validate.rs).  The `usize` counters are
modelled as `Nat` with the wrap-around of Rust release-mode arithmetic made
explicit modulo `2 ^ 64`; the `isize` parenthesis counter is modelled as `Int`
with the analogous two's-complement wrap.  The `unwrap_unchecked` calls on an
empty `function_local_paren_count` vector have no defined result in Rust, so
the validator model returns `none` in exactly those situations. -/

/-- Token kinds, mirroring `Token` in src/validate.rs. -/
inductive VToken where
  | Value | LeftParen | RightParen | Function | ArgSeperator | Operator
  deriving DecidableEq

/-- The `From<&InputToken<V, F, O>> for Token` conversion in src/validate.rs. -/
def tokenKind : InputToken V F O → VToken
  | InputToken.Value _ => VToken.Value
  | InputToken.LeftParen => VToken.LeftParen
  | InputToken.RightParen => VToken.RightParen
  | InputToken.Function _ => VToken.Function
  | InputToken.ArgSeperator => VToken.ArgSeperator
  | InputToken.Operator _ => VToken.Operator

/-- Validator errors, mirroring `Error` in src/validate.rs: `InvalidToken`
carries the offending token, the expected token kinds and the position;
`ParenMissMatch` carries the signed residual parenthesis count. -/
inductive ValError (V F O : Type) where
  | InvalidToken : InputToken V F O → List VToken → Nat → ValError V F O
  | ParenMissMatch : Int → ValError V F O
  deriving DecidableEq

/-- The three validator states of src/validate.rs. -/
inductive ValState where
  | Expression | AfterValue | FunctionArgsStart
  deriving DecidableEq

/-- Wrap-around of Rust release-mode `usize` increment. -/
def uinc (n : Nat) : Nat := (n + 1) % (2 ^ 64)

/-- Wrap-around of Rust release-mode `usize` decrement. -/
def udec (n : Nat) : Nat := (n + (2 ^ 64 - 1)) % (2 ^ 64)

/-- Wrap-around of a Rust release-mode `isize` value. -/
def iwrap (x : Int) : Int := (x + 2 ^ 63) % 2 ^ 64 - 2 ^ 63

/-- The private `ValidationContext` of src/validate.rs.  The `Vec` top is the
list head. -/
structure ValidationContext where
  function_level : Nat
  paren_count : Int
  function_local_paren_count : List Nat
  deriving DecidableEq

/-- `ValidationContext::new` in src/validate.rs. -/
def ValidationContext.new : ValidationContext := ⟨0, 0, [0]⟩

/-- `ValidationContext::enter_fn_args` in src/validate.rs. -/
def ValidationContext.enter_fn_args (c : ValidationContext) : ValidationContext :=
  ⟨uinc c.function_level, iwrap (c.paren_count + 1), 1 :: c.function_local_paren_count⟩

/-- `ValidationContext::left_paren` in src/validate.rs; `none` models the
undefined behaviour of `last_mut().unwrap_unchecked()` on an empty vector. -/
def ValidationContext.left_paren (c : ValidationContext) : Option ValidationContext :=
  match c.function_local_paren_count with
  | [] => none
  | n :: rest => some ⟨c.function_level, iwrap (c.paren_count + 1), uinc n :: rest⟩

/-- `ValidationContext::right_paren` in src/validate.rs: decrement the top
local counter (wrapping at zero, as the release-mode `usize` subtraction does)
and pop the level when the counter reaches zero; `none` models the undefined
behaviour on an empty vector. -/
def ValidationContext.right_paren (c : ValidationContext) : Option ValidationContext :=
  match c.function_local_paren_count with
  | [] => none
  | n :: rest =>
      some ⟨c.function_level, iwrap (c.paren_count - 1),
        if udec n = 0 then rest else udec n :: rest⟩

/-- `ValidationContext::allow_end_of_fn_arg` in src/validate.rs; `none` models
the undefined behaviour of `last().unwrap_unchecked()` on an empty vector. -/
def ValidationContext.allow_end_of_fn_arg (c : ValidationContext) : Option Bool :=
  match c.function_local_paren_count with
  | [] => none
  | n :: _ => some (decide (0 < c.function_level) && decide (n = 1))

/-- One transition of the validator state machine, covering the three
`new_val_state!` instantiations in src/validate.rs.  The expected-token lists
are the ones the macro builds from the listed patterns. -/
def stepValidate (st : ValState) (t : InputToken V F O) (pos : Nat)
    (c : ValidationContext) :
    Option (Except (ValError V F O) (ValState × ValidationContext)) :=
  match st, tokenKind t with
  | ValState.Expression, VToken.Value => some (Except.ok (ValState.AfterValue, c))
  | ValState.Expression, VToken.LeftParen =>
      match c.left_paren with
      | none => none
      | some c2 => some (Except.ok (ValState.Expression, c2))
  | ValState.Expression, VToken.Function =>
      some (Except.ok (ValState.FunctionArgsStart, c))
  | ValState.Expression, _ =>
      some (Except.error (ValError.InvalidToken t
        [VToken.Value, VToken.LeftParen, VToken.Function] pos))
  | ValState.AfterValue, VToken.Operator => some (Except.ok (ValState.Expression, c))
  | ValState.AfterValue, VToken.RightParen =>
      match c.right_paren with
      | none => none
      | some c2 => some (Except.ok (ValState.AfterValue, c2))
  | ValState.AfterValue, VToken.ArgSeperator =>
      match c.allow_end_of_fn_arg with
      | none => none
      | some true => some (Except.ok (ValState.Expression, c))
      | some false => some (Except.error (ValError.InvalidToken t
          [VToken.Operator, VToken.RightParen, VToken.ArgSeperator] pos))
  | ValState.AfterValue, _ =>
      some (Except.error (ValError.InvalidToken t
        [VToken.Operator, VToken.RightParen, VToken.ArgSeperator] pos))
  | ValState.FunctionArgsStart, VToken.LeftParen =>
      some (Except.ok (ValState.Expression, c.enter_fn_args))
  | ValState.FunctionArgsStart, _ =>
      some (Except.error (ValError.InvalidToken t [VToken.LeftParen] pos))

/-- Main loop of `validate` in src/validate.rs, including the final
`paren_count` balance check. -/
def runValidate (st : ValState) (c : ValidationContext) (pos : Nat) :
    List (InputToken V F O) → Option (Except (ValError V F O) Unit)
  | [] =>
      if c.paren_count ≠ 0 then some (Except.error (ValError.ParenMissMatch c.paren_count))
      else some (Except.ok ())
  | t :: rest =>
      match stepValidate st t pos c with
      | none => none
      | some (Except.error e) => some (Except.error e)
      | some (Except.ok (st2, c2)) => runValidate st2 c2 (pos + 1) rest

/-- The public `validate` of src/validate.rs; `none` means the run reached one
of the undefined-behaviour situations modelled above. -/
def validate (ts : List (InputToken V F O)) : Option (Except (ValError V F O) Unit) :=
  runValidate ValState.Expression ValidationContext.new 0 ts

/-! Auxiliary predicates used to state the claims. -/

/-- Balanced and well-nested parentheses relative to `k` already-open ones:
every `RightParen` matches a still-open `LeftParen` and none remains open at
the end. -/
def dyck : Nat → List (InputToken V F O) → Bool
  | k, [] => k == 0
  | k, InputToken.LeftParen :: rest => dyck (k + 1) rest
  | k, InputToken.RightParen :: rest => if k = 0 then false else dyck (k - 1) rest
  | k, _ :: rest => dyck k rest

/-- Every `Function` token is immediately followed by a `LeftParen`. -/
def funLP : List (InputToken V F O) → Bool
  | [] => true
  | InputToken.Function _ :: rest =>
      match rest with
      | InputToken.LeftParen :: _ => funLP rest
      | _ => false
  | _ :: rest => funLP rest

/-- True on a left-paren marker of the pending stack. -/
def isMarker : StackToken F O → Bool
  | StackToken.LeftParen _ => true
  | _ => false

/-- Number of left-paren markers on the pending stack. -/
def countMarkers (s : List (StackToken F O)) : Nat := s.countP (fun t => isMarker t)

/-- The non-delimiter input tokens, as output tokens: values, functions and
operators survive conversion, delimiters do not. -/
def inpToOut : InputToken V F O → Option (OutputToken V F O)
  | InputToken.Value v => some (OutputToken.Value v)
  | InputToken.Function f => some (OutputToken.Function f)
  | InputToken.Operator o => some (OutputToken.Operator o)
  | _ => none

/-- Well-formed pending stacks arising while converting input whose functions
are always parenthesised: operators may appear anywhere, every left-paren
marker may sit directly above an optional pending function, and `k` counts the
markers. -/
inductive GoodStack : List (StackToken F O) → Nat → Prop where
  | nil : GoodStack [] 0
  | op : ∀ {s k} (o : O), GoodStack s k → GoodStack (StackToken.Operator o :: s) k
  | paren : ∀ {s k} (p : Nat), GoodStack s k → GoodStack (StackToken.LeftParen p :: s) (k + 1)
  | parenFn : ∀ {s k} (p : Nat) (f : F), GoodStack s k →
      GoodStack (StackToken.LeftParen p :: StackToken.Function f :: s) (k + 1)

/-- Position of the first `RightParen` that closes more parentheses than are
open, scanning from position `pos` with `k` parentheses already open.  This is
the specification-side description of the unmatched-closing-parenthesis
condition in the `RightParen` arm of ` to_postfix`. -/
def parenScan : Nat → Nat → List (InputToken V F O) → Option Nat
  | _, _, [] => none
  | pos, k, InputToken.LeftParen :: rest => parenScan (pos + 1) (k + 1) rest
  | pos, k, InputToken.RightParen :: rest =>
      if k = 0 then some pos else parenScan (pos + 1) (k - 1) rest
  | pos, k, _ :: rest => parenScan (pos + 1) k rest

/-- Specification-side bookkeeping for argument-separator legality, following
the words of the spec (section 4.2, context rule): a stack of still-open
function-call levels, each carrying its local open-parenthesis count, starting
at 1 when a function argument list opens; a nested `LeftParen` increments the
innermost count, a matching `RightParen` decrements it and pops the level at
zero.  The boolean records whether the previous token was a `Function`. -/
def specFnLevels : Bool → List Nat → List VToken → List Nat
  | _, levels, [] => levels
  | _, levels, VToken.Function :: rest => specFnLevels true levels rest
  | afterFn, levels, VToken.LeftParen :: rest =>
      if afterFn then specFnLevels false (1 :: levels) rest
      else
        match levels with
        | [] => specFnLevels false [] rest
        | n :: ls => specFnLevels false ((n + 1) :: ls) rest
  | _, levels, VToken.RightParen :: rest =>
      match levels with
      | [] => specFnLevels false [] rest
      | n :: ls =>
          if n - 1 = 0 then specFnLevels false ls rest
          else specFnLevels false ((n - 1) :: ls) rest
  | _, levels, _ :: rest => specFnLevels false levels rest

/-! Theorems. -/

/-- C7: the Wikipedia-style worked example
`sin ( max ( 2 , 3 ) / 3 * 4 )` converts to `[2, 3, max, 3, Div, 4, Mul, sin]`. -/
theorem c7_wikipedia_example :
    to_postfix MathOperator.precedence MathOperator.is_left_associative
      ([InputToken.Function "sin", InputToken.LeftParen, InputToken.Function "max",
        InputToken.LeftParen, InputToken.Value 2, InputToken.ArgSeperator,
        InputToken.Value 3, InputToken.RightParen, InputToken.Operator MathOperator.Div,
        InputToken.Value 3, InputToken.Operator MathOperator.Mul, InputToken.Value 4,
        InputToken.RightParen] : List (InputToken Nat String MathOperator)) =
      Except.ok [OutputToken.Value 2, OutputToken.Value 3, OutputToken.Function "max",
        OutputToken.Value 3, OutputToken.Operator MathOperator.Div, OutputToken.Value 4,
        OutputToken.Operator MathOperator.Mul, OutputToken.Function "sin"] := rfl

/-- C8: a bare function applied to a single value converts exactly like the
explicitly parenthesised single-argument call, for every operator table,
function identifier and value: both yield `Ok [Value v, Function f]`. -/
theorem c8_bare_function_call (prec : O → Nat) (la : O → Bool) (f : F) (v : V) :
    to_postfix prec la [InputToken.Function f, InputToken.Value v] =
        Except.ok [OutputToken.Value v, OutputToken.Function f] ∧
      to_postfix prec la [InputToken.Function f, InputToken.LeftParen,
          InputToken.Value v, InputToken.RightParen] =
        Except.ok [OutputToken.Value v, OutputToken.Function f] :=
  ⟨rfl, rfl⟩

/-- C6: an incoming operator never pops a stacked operator of equal precedence
when it is right associative, and consequently `a ^ b ^ c` with the
right-associative `Exponent` of src/op.rs converts to `[a, b, c, ^, ^]`. -/
theorem c6_right_assoc_not_popped :
    (∀ (V F O : Type) (prec : O → Nat) (la : O → Bool) (o1 o2 : O)
        (s : List (StackToken F O)) (out : List (OutputToken V F O)),
        prec o2 = prec o1 → la o1 = false →
        popWhileHigher prec la o1 (StackToken.Operator o2 :: s) out =
          (StackToken.Operator o2 :: s, out)) ∧
      (∀ (V : Type) (a b c : V),
        to_postfix MathOperator.precedence MathOperator.is_left_associative
          [InputToken.Value a, InputToken.Operator MathOperator.Exponent,
            InputToken.Value b, InputToken.Operator MathOperator.Exponent,
            InputToken.Value c] =
          Except.ok ([OutputToken.Value a, OutputToken.Value b, OutputToken.Value c,
            OutputToken.Operator MathOperator.Exponent,
            OutputToken.Operator MathOperator.Exponent] :
              List (OutputToken V String MathOperator))) := by
  constructor
  · intro V F O prec la o1 o2 s out h1 h2
    simp [popWhileHigher, h1, h2]
  · intro V a b c
    rfl

/-- Witness for C6: the first conjunct applied to the `Exponent` operator with
its hypotheses discharged on concrete input. -/
theorem c6_witness :
    popWhileHigher MathOperator.precedence MathOperator.is_left_associative
        MathOperator.Exponent
        ([StackToken.Operator MathOperator.Exponent] : List (StackToken String MathOperator))
        ([] : List (OutputToken Nat String MathOperator)) =
      ([StackToken.Operator MathOperator.Exponent], []) :=
  c6_right_assoc_not_popped.1 Nat String MathOperator MathOperator.precedence
    MathOperator.is_left_associative MathOperator.Exponent MathOperator.Exponent [] []
    rfl rfl

/-- C10: validation is a deterministic pure function of the token sequence:
two runs on the same input return identical results. -/
theorem c10_validate_deterministic (ts : List (InputToken V F O)) :
    validate ts = validate ts := rfl

/-- C3 counterexample: `Value(false), RightParen` followed by further tokens
does not fail with `InvalidToken` at position 1; `AfterValue` accepts
`RightParen` unconditionally, and the continuation
`Operator(Add), LeftParen, Value(true)` rebalances the wrapped counters so that
validation even succeeds. -/
theorem c3_counterexample :
    validate ([InputToken.Value false, InputToken.RightParen,
      InputToken.Operator MathOperator.Add, InputToken.LeftParen, InputToken.Value true] :
        List (InputToken Bool String MathOperator)) = some (Except.ok ()) := rfl

/-- C3 amended: on `Value(false), RightParen` validation fails only at the end
of the stream, with `ParenMissMatch (-1)` (a negative residual balance), not
with `InvalidToken` at position 1. -/
theorem c3_paren_missmatch_at_end :
    validate ([InputToken.Value false, InputToken.RightParen] :
        List (InputToken Bool String MathOperator)) =
      some (Except.error (ValError.ParenMissMatch (-1))) := rfl

/-- C4: on the token-by-token accepted input
`LeftParen, Value(1), RightParen, RightParen` the validator reaches
`right_paren` with an empty `function_local_paren_count` vector — the model
signals the undefined `unwrap_unchecked` access as `none`. -/
theorem c4_empty_stack_access :
    validate ([InputToken.LeftParen, InputToken.Value 1, InputToken.RightParen,
      InputToken.RightParen] : List (InputToken Nat String MathOperator)) = none := rfl

/-- Helper for C2: `left_paren` preserves `function_level`. -/
theorem left_paren_function_level {c c2 : ValidationContext}
    (h : c.left_paren = some c2) : c2.function_level = c.function_level := by
  unfold ValidationContext.left_paren at h
  cases hl : c.function_local_paren_count with
  | nil => rw [hl] at h; exact Option.noConfusion h
  | cons n r => rw [hl] at h; injection h with h2; rw [← h2]

/-- Helper for C2: `right_paren` preserves `function_level`. -/
theorem right_paren_function_level {c c2 : ValidationContext}
    (h : c.right_paren = some c2) : c2.function_level = c.function_level := by
  unfold ValidationContext.right_paren at h
  cases hl : c.function_local_paren_count with
  | nil => rw [hl] at h; exact Option.noConfusion h
  | cons n r => rw [hl] at h; injection h with h2; rw [← h2]

/-- Helper for C2: a run that starts outside `FunctionArgsStart` with
`function_level = 0` on a stream without `Function` tokens can never accept an
`ArgSeperator`, hence never returns success when one occurs. -/
theorem runValidate_argsep_no_function :
    ∀ (ts : List (InputToken V F O)) (st : ValState) (c : ValidationContext) (pos : Nat),
      st ≠ ValState.FunctionArgsStart → c.function_level = 0 →
      (∀ x ∈ ts, tokenKind x ≠ VToken.Function) →
      InputToken.ArgSeperator ∈ ts →
      runValidate st c pos ts ≠ some (Except.ok ()) := by
  intro ts
  induction ts with
  | nil => intro st c pos _ _ _ hmem; simp at hmem
  | cons t rest ih =>
    intro st c pos hst hfl hnofn hmem
    have hnofn_rest : ∀ x ∈ rest, tokenKind x ≠ VToken.Function :=
      fun x hx => hnofn x (List.mem_cons_of_mem _ hx)
    cases t with
    | Function f => exact absurd rfl (hnofn _ (List.mem_cons_self _ _))
    | Value v =>
      have hmem2 : InputToken.ArgSeperator ∈ rest := by
        cases hmem with
        | tail _ h => exact h
      cases st with
      | Expression =>
        simp only [runValidate, stepValidate, tokenKind]
        exact ih ValState.AfterValue c (pos + 1) (by simp) hfl hnofn_rest hmem2
      | AfterValue => simp [runValidate, stepValidate, tokenKind]
      | FunctionArgsStart => exact absurd rfl hst
    | LeftParen =>
      have hmem2 : InputToken.ArgSeperator ∈ rest := by
        cases hmem with
        | tail _ h => exact h
      cases st with
      | Expression =>
        simp only [runValidate, stepValidate, tokenKind]
        cases hc : c.left_paren with
        | none => simp
        | some c2 =>
          simp only []
          exact ih ValState.Expression c2 (pos + 1) (by simp)
            ((left_paren_function_level hc).trans hfl) hnofn_rest hmem2
      | AfterValue => simp [runValidate, stepValidate, tokenKind]
      | FunctionArgsStart => exact absurd rfl hst
    | RightParen =>
      have hmem2 : InputToken.ArgSeperator ∈ rest := by
        cases hmem with
        | tail _ h => exact h
      cases st with
      | Expression => simp [runValidate, stepValidate, tokenKind]
      | AfterValue =>
        simp only [runValidate, stepValidate, tokenKind]
        cases hc : c.right_paren with
        | none => simp
        | some c2 =>
          simp only []
          exact ih ValState.AfterValue c2 (pos + 1) (by simp)
            ((right_paren_function_level hc).trans hfl) hnofn_rest hmem2
      | FunctionArgsStart => exact absurd rfl hst
    | Operator o =>
      have hmem2 : InputToken.ArgSeperator ∈ rest := by
        cases hmem with
        | tail _ h => exact h
      cases st with
      | Expression => simp [runValidate, stepValidate, tokenKind]
      | AfterValue =>
        simp only [runValidate, stepValidate, tokenKind]
        exact ih ValState.Expression c (pos + 1) (by simp) hfl hnofn_rest hmem2
      | FunctionArgsStart => exact absurd rfl hst
    | ArgSeperator =>
      cases st with
      | Expression => simp [runValidate, stepValidate, tokenKind]
      | AfterValue =>
        simp only [runValidate, stepValidate, tokenKind]
        cases hl : c.function_local_paren_count with
        | nil => simp [ValidationContext.allow_end_of_fn_arg, hl]
        | cons n r =>
          simp [ValidationContext.allow_end_of_fn_arg, hl, hfl]
      | FunctionArgsStart => exact absurd rfl hst

/-- C2 counterexample: the claimed iff fails.  On
`Function(f), LeftParen, Value(1), RightParen, Operator(Add), LeftParen,
Value(1), ArgSeparator, Value(2), RightParen` — `f(1) + (1, 2)` — the
specification-side level stack is empty before position 7 (every function
argument list is already closed), yet the validator accepts the whole input:
`function_level` is never decremented, so the stale counter legitimises the
separator. -/
theorem c2_counterexample :
    validate ([InputToken.Function "f", InputToken.LeftParen, InputToken.Value 1,
        InputToken.RightParen, InputToken.Operator MathOperator.Add,
        InputToken.LeftParen, InputToken.Value 1, InputToken.ArgSeperator,
        InputToken.Value 2, InputToken.RightParen] :
          List (InputToken Nat String MathOperator)) = some (Except.ok ()) ∧
      specFnLevels false []
        (List.map tokenKind ([InputToken.Function "f", InputToken.LeftParen,
          InputToken.Value 1, InputToken.RightParen, InputToken.Operator MathOperator.Add,
          InputToken.LeftParen, InputToken.Value 1] :
            List (InputToken Nat String MathOperator))) = [] :=
  ⟨rfl, rfl⟩

/-- C2 amended: the `ArgSeperator` guard checks the code's `function_level`
counter (which counts argument lists ever opened and is never decremented)
together with the innermost tracked local parenthesis count.  Hence the
spec's nested example `f ( ( 1 , 2 ) )` is still rejected with `InvalidToken`
at exactly position 4, and on a stream whose scanned part contains no
`Function` token at all an `ArgSeperator` can never be accepted; but after all
function argument lists have closed a separator may wrongly be accepted. -/
theorem c2_argsep_guard :
    (validate ([InputToken.Function "f", InputToken.LeftParen, InputToken.LeftParen,
        InputToken.Value 1, InputToken.ArgSeperator, InputToken.Value 2,
        InputToken.RightParen, InputToken.RightParen] :
          List (InputToken Nat String MathOperator)) =
      some (Except.error (ValError.InvalidToken InputToken.ArgSeperator
        [VToken.Operator, VToken.RightParen, VToken.ArgSeperator] 4))) ∧
      (∀ (V F O : Type) (ts : List (InputToken V F O)),
        (∀ x ∈ ts, tokenKind x ≠ VToken.Function) →
        InputToken.ArgSeperator ∈ ts →
        validate ts ≠ some (Except.ok ())) := by
  refine ⟨rfl, ?_⟩
  intro V F O ts hnofn hmem
  exact runValidate_argsep_no_function ts ValState.Expression ValidationContext.new 0
    (by simp) rfl hnofn hmem

/-- Witness for C2: the amended theorem applied to the concrete one-token
stream `[ArgSeperator]`, whose hypotheses hold by computation. -/
theorem c2_witness :
    validate ([InputToken.ArgSeperator] : List (InputToken Nat String MathOperator)) ≠
      some (Except.ok ()) :=
  c2_argsep_guard.2 Nat String MathOperator [InputToken.ArgSeperator]
    (by intro x hx; simp at hx; simp [hx, tokenKind]) (by simp)

/-- Helper: an entry of the stack returned by `popOps` was on the input stack. -/
theorem popOps_mem {x : StackToken F O} :
    ∀ (stack : List (StackToken F O)) (out : List (OutputToken V F O)),
      x ∈ (popOps stack out).1 → x ∈ stack := by
  intro stack
  induction stack with
  | nil => intro out h; simp [popOps] at h
  | cons t rest ih =>
    intro out h
    cases t with
    | Operator o => exact List.mem_cons_of_mem _ (ih _ h)
    | LeftParen p => simpa [popOps] using h
    | Function f => simpa [popOps] using h

/-- Helper: an entry of the stack returned by `popWhileHigher` was on the
input stack. -/
theorem popWhileHigher_mem {prec : O → Nat} {la : O → Bool} {o1 : O}
    {x : StackToken F O} :
    ∀ (stack : List (StackToken F O)) (out : List (OutputToken V F O)),
      x ∈ (popWhileHigher prec la o1 stack out).1 → x ∈ stack := by
  intro stack
  induction stack with
  | nil => intro out h; simp [popWhileHigher] at h
  | cons t rest ih =>
    intro out h
    cases t with
    | Operator o2 =>
      rw [popWhileHigher] at h
      by_cases hc : prec o2 > prec o1 ∨ (prec o1 = prec o2 ∧ la o1 = true)
      · rw [if_pos hc] at h
        exact List.mem_cons_of_mem _ (ih _ h)
      · rw [if_neg hc] at h
        exact h
    | LeftParen p => simpa [popWhileHigher] using h
    | Function f => simpa [popWhileHigher] using h

/-- Helper: an entry of the stack returned by `rightParenStep` was on the
input stack. -/
theorem rightParenStep_mem {x : StackToken F O}
    (stack : List (StackToken F O)) (out : List (OutputToken V F O))
    (h : x ∈ (rightParenStep stack out).1) : x ∈ stack := by
  apply popOps_mem stack out
  have htail : ∀ y : StackToken F O, y ∈ (popOps stack out).1.tail →
      y ∈ (popOps stack out).1 := fun y hy => List.mem_of_mem_tail hy
  rw [rightParenStep] at h
  rcases hc : (popOps stack out).1.tail with _ | ⟨hd, tl⟩
  · rw [hc] at h
    simp at h
  · rw [hc] at h
    cases hd with
    | Function f =>
      simp only [] at h
      exact htail x (hc ▸ List.mem_cons_of_mem _ h)
    | LeftParen p => exact htail x (hc ▸ h)
    | Operator o => exact htail x (hc ▸ h)

/-- Helper: a drain error names a left-paren marker present on the stack. -/
theorem drainStack_error_mem {e : ParenMissmatchError} :
    ∀ (s : List (StackToken F O)) (out : List (OutputToken V F O)),
      drainStack s out = Except.error e → StackToken.LeftParen e.pos ∈ s := by
  intro s
  induction s with
  | nil => intro out h; exact absurd h (by simp [drainStack])
  | cons t rest ih =>
    intro out h
    cases t with
    | LeftParen p =>
      rw [drainStack] at h
      injection h with h2
      rw [← h2]
      exact List.mem_cons_self _ _
    | Function f => exact List.mem_cons_of_mem _ (ih _ h)
    | Operator o => exact List.mem_cons_of_mem _ (ih _ h)

/-- Helper for C9, first direction: an engine error is either the first
over-closing `RightParen` found by the specification-side scan, or (when the
scan finds none) a `LeftParen`: one recorded by a marker already on the stack,
or one still in the input. -/
theorem toPostfixFrom_error_cases {prec : O → Nat} {la : O → Bool} :
    ∀ (ts : List (InputToken V F O)) (pos k : Nat) (stack : List (StackToken F O))
      (out : List (OutputToken V F O)) (e : ParenMissmatchError),
      toPostfixFrom prec la ts pos (k : Int) stack out = Except.error e →
      (parenScan pos k ts = some e.pos ∧
        ∃ i, e.pos = pos + i ∧ ts.get? i = some InputToken.RightParen) ∨
      (parenScan pos k ts = none ∧
        (StackToken.LeftParen e.pos ∈ stack ∨
          ∃ i, e.pos = pos + i ∧ ts.get? i = some InputToken.LeftParen)) := by
  intro ts
  induction ts with
  | nil =>
    intro pos k stack out e h
    right
    exact ⟨rfl, Or.inl (drainStack_error_mem stack out h)⟩
  | cons t rest ih =>
    intro pos k stack out e h
    cases t with
    | Value v =>
      rw [toPostfixFrom] at h
      rcases ih (pos + 1) k stack _ e h with ⟨hs, i, hp, hg⟩ | ⟨hs, hrest⟩
      · exact Or.inl ⟨hs, i + 1, by omega, by simpa using hg⟩
      · refine Or.inr ⟨hs, ?_⟩
        rcases hrest with hm | ⟨i, hp, hg⟩
        · exact Or.inl hm
        · exact Or.inr ⟨i + 1, by omega, by simpa using hg⟩
    | Function f =>
      rw [toPostfixFrom] at h
      rcases ih (pos + 1) k _ _ e h with ⟨hs, i, hp, hg⟩ | ⟨hs, hrest⟩
      · exact Or.inl ⟨hs, i + 1, by omega, by simpa using hg⟩
      · refine Or.inr ⟨hs, ?_⟩
        rcases hrest with hm | ⟨i, hp, hg⟩
        · rcases List.mem_cons.mp hm with heq | hm2
          · exact absurd heq (by simp)
          · exact Or.inl hm2
        · exact Or.inr ⟨i + 1, by omega, by simpa using hg⟩
    | ArgSeperator =>
      rw [toPostfixFrom] at h
      rcases ih (pos + 1) k _ _ e h with ⟨hs, i, hp, hg⟩ | ⟨hs, hrest⟩
      · exact Or.inl ⟨hs, i + 1, by omega, by simpa using hg⟩
      · refine Or.inr ⟨hs, ?_⟩
        rcases hrest with hm | ⟨i, hp, hg⟩
        · exact Or.inl (popOps_mem stack out hm)
        · exact Or.inr ⟨i + 1, by omega, by simpa using hg⟩
    | Operator o1 =>
      rw [toPostfixFrom] at h
      rcases ih (pos + 1) k _ _ e h with ⟨hs, i, hp, hg⟩ | ⟨hs, hrest⟩
      · exact Or.inl ⟨hs, i + 1, by omega, by simpa using hg⟩
      · refine Or.inr ⟨hs, ?_⟩
        rcases hrest with hm | ⟨i, hp, hg⟩
        · rcases List.mem_cons.mp hm with heq | hm2
          · exact absurd heq (by simp)
          · exact Or.inl (popWhileHigher_mem stack out hm2)
        · exact Or.inr ⟨i + 1, by omega, by simpa using hg⟩
    | LeftParen =>
      rw [toPostfixFrom] at h
      rw [show (k : Int) + 1 = ((k + 1 : Nat) : Int) by push_cast; ring] at h
      rcases ih (pos + 1) (k + 1) _ _ e h with ⟨hs, i, hp, hg⟩ | ⟨hs, hrest⟩
      · exact Or.inl ⟨by simpa [parenScan] using hs, i + 1, by omega, by simpa using hg⟩
      · refine Or.inr ⟨by simpa [parenScan] using hs, ?_⟩
        rcases hrest with hm | ⟨i, hp, hg⟩
        · rcases List.mem_cons.mp hm with heq | hm2
          · have hp2 : e.pos = pos := by injection heq
            exact Or.inr ⟨0, by omega, rfl⟩
          · exact Or.inl hm2
        · exact Or.inr ⟨i + 1, by omega, by simpa using hg⟩
    | RightParen =>
      rw [toPostfixFrom] at h
      cases k with
      | zero =>
        rw [if_pos (show ((0 : Nat) : Int) = 0 by norm_num)] at h
        injection h with h2
        left
        refine ⟨by simp [parenScan, ← h2], 0, by simp [← h2], rfl⟩
      | succ k2 =>
        rw [if_neg (by exact_mod_cast Nat.succ_ne_zero k2)] at h
        rw [show ((k2 + 1 : Nat) : Int) - 1 = (k2 : Int) by push_cast; ring] at h
        rcases ih (pos + 1) k2 _ _ e h with ⟨hs, i, hp, hg⟩ | ⟨hs, hrest⟩
        · exact Or.inl ⟨by simpa [parenScan] using hs, i + 1, by omega, by simpa using hg⟩
        · refine Or.inr ⟨by simpa [parenScan] using hs, ?_⟩
          rcases hrest with hm | ⟨i, hp, hg⟩
          · exact Or.inl (rightParenStep_mem stack out hm)
          · exact Or.inr ⟨i + 1, by omega, by simpa using hg⟩

/-- Helper for C9, second direction: when the specification-side scan finds an
over-closing `RightParen`, the engine fails there with exactly that position,
whatever the accumulated stack and output are. -/
theorem parenScan_some_error {prec : O → Nat} {la : O → Bool} :
    ∀ (ts : List (InputToken V F O)) (pos k : Nat) (stack : List (StackToken F O))
      (out : List (OutputToken V F O)) (i : Nat),
      parenScan pos k ts = some i →
      toPostfixFrom prec la ts pos (k : Int) stack out = Except.error ⟨i⟩ := by
  intro ts
  induction ts with
  | nil => intro pos k stack out i h; exact absurd h (by simp [parenScan])
  | cons t rest ih =>
    intro pos k stack out i h
    cases t with
    | Value v => rw [toPostfixFrom]; exact ih (pos + 1) k _ _ i (by simpa [parenScan] using h)
    | Function f => rw [toPostfixFrom]; exact ih (pos + 1) k _ _ i (by simpa [parenScan] using h)
    | ArgSeperator => rw [toPostfixFrom]; exact ih (pos + 1) k _ _ i (by simpa [parenScan] using h)
    | Operator o1 => rw [toPostfixFrom]; exact ih (pos + 1) k _ _ i (by simpa [parenScan] using h)
    | LeftParen =>
      rw [toPostfixFrom]
      rw [show (k : Int) + 1 = ((k + 1 : Nat) : Int) by push_cast; ring]
      exact ih (pos + 1) (k + 1) _ _ i (by simpa [parenScan] using h)
    | RightParen =>
      cases k with
      | zero =>
        rw [parenScan] at h
        rw [if_pos rfl] at h
        injection h with h2
        rw [toPostfixFrom, if_pos (show ((0 : Nat) : Int) = 0 by norm_num), h2]
      | succ k2 =>
        rw [toPostfixFrom]
        rw [if_neg (by exact_mod_cast Nat.succ_ne_zero k2)]
        rw [show ((k2 + 1 : Nat) : Int) - 1 = (k2 : Int) by push_cast; ring]
        refine ih (pos + 1) k2 _ _ i ?_
        rw [parenScan] at h
        rw [if_neg (Nat.succ_ne_zero k2)] at h
        simpa using h

/-- C9: ` to_postfix` fails with `ParenMissmatchError` in exactly two
situations.  A returned error position is either the first `RightParen` read
while the open-parenthesis counter is zero (as computed by the
specification-side scan `parenScan`), or — when no such `RightParen` exists —
the recorded position of a `LeftParen` left on the stack at end of input; and
conversely, when the scan finds an over-closing `RightParen` the conversion
fails at exactly that position. -/
theorem c9_error_characterisation (prec : O → Nat) (la : O → Bool)
    (ts : List (InputToken V F O)) :
    (∀ e, to_postfix prec la ts = Except.error e →
      (parenScan 0 0 ts = some e.pos ∧ ts.get? e.pos = some InputToken.RightParen) ∨
      (parenScan 0 0 ts = none ∧ ts.get? e.pos = some InputToken.LeftParen)) ∧
    (∀ i, parenScan 0 0 ts = some i →
      to_postfix prec la ts = Except.error ⟨i⟩) := by
  constructor
  · intro e h
    rcases toPostfixFrom_error_cases ts 0 0 [] [] e h with ⟨hs, i, hp, hg⟩ | ⟨hs, hrest⟩
    · left
      refine ⟨hs, ?_⟩
      rw [hp]
      simpa using hg
    · right
      refine ⟨hs, ?_⟩
      rcases hrest with hm | ⟨i, hp, hg⟩
      · simp at hm
      · rw [hp]
        simpa using hg
  · intro i h
    exact parenScan_some_error ts 0 0 [] [] i h

/-- Witness for C9: both directions applied to the concrete input
`Value(1), RightParen, LeftParen`, whose conversion fails at position 1. -/
theorem c9_witness :
    ((parenScan 0 0 ([InputToken.Value 1, InputToken.RightParen, InputToken.LeftParen] :
        List (InputToken Nat String MathOperator)) = some 1 ∧
      ([InputToken.Value 1, InputToken.RightParen,
        InputToken.LeftParen] : List (InputToken Nat String MathOperator)).get? 1 =
        some InputToken.RightParen) ∨
     (parenScan 0 0 ([InputToken.Value 1, InputToken.RightParen, InputToken.LeftParen] :
        List (InputToken Nat String MathOperator)) = none ∧
      ([InputToken.Value 1, InputToken.RightParen,
        InputToken.LeftParen] : List (InputToken Nat String MathOperator)).get? 1 =
        some InputToken.LeftParen)) ∧
    to_postfix MathOperator.precedence MathOperator.is_left_associative
      ([InputToken.Value 1, InputToken.RightParen, InputToken.LeftParen] :
        List (InputToken Nat String MathOperator)) = Except.error ⟨1⟩ :=
  ⟨(c9_error_characterisation MathOperator.precedence MathOperator.is_left_associative
      _).1 ⟨1⟩ rfl,
    (c9_error_characterisation MathOperator.precedence MathOperator.is_left_associative
      _).2 1 rfl⟩

/-- Helper: a good stack with no open parenthesis drains without error. -/
theorem good_drain {s : List (StackToken F O)} {k : Nat} (h : GoodStack s k) :
    k = 0 → ∀ out : List (OutputToken V F O), ∃ r, drainStack s out = Except.ok r := by
  induction h with
  | nil => intro _ out; exact ⟨out, rfl⟩
  | op o h2 ih => intro hk out; rw [drainStack]; exact ih hk _
  | paren p h2 ih => intro hk; omega
  | parenFn p f h2 ih => intro hk; omega

/-- Helper: a good stack never has a pending function on top. -/
theorem good_head_not_function {s : List (StackToken F O)} {k : Nat}
    (h : GoodStack s k) (f : F) : s.head? ≠ some (StackToken.Function f) := by
  cases h <;> simp

/-- Helper: removing a prefix of operators from a good stack leaves a good
stack with the same number of markers. -/
theorem good_of_ops_prefix :
    ∀ (popped s : List (StackToken F O)) (k : Nat),
      (∀ t ∈ popped, ∃ o, t = StackToken.Operator o) →
      GoodStack (popped ++ s) k → GoodStack s k := by
  intro popped
  induction popped with
  | nil => intro s k _ h; simpa using h
  | cons t tl ih =>
    intro s k hall h
    obtain ⟨o, rfl⟩ := hall t (List.mem_cons_self _ _)
    cases h with
    | op o2 h2 => exact ih s k (fun x hx => hall x (List.mem_cons_of_mem _ hx)) h2

/-- Helper: full decomposition of a `popOps` run: the popped prefix consists of
operators, they are emitted in order, and the remaining stack has no operator
on top. -/
theorem popOps_decomp :
    ∀ (stack : List (StackToken F O)) (out : List (OutputToken V F O)),
      ∃ popped, stack = popped ++ (popOps stack out).1 ∧
        (popOps stack out).2 = out ++ popped.filterMap stackOut ∧
        (∀ t ∈ popped, ∃ o, t = StackToken.Operator o) ∧
        ∀ o, (popOps stack out).1.head? ≠ some (StackToken.Operator o) := by
  intro stack
  induction stack with
  | nil =>
    intro out
    refine ⟨[], ?_, ?_, ?_, ?_⟩ <;> simp [popOps]
  | cons t rest ih =>
    intro out
    cases t with
    | Operator o =>
      obtain ⟨popped, h1, h2, h3, h4⟩ := ih (out ++ [OutputToken.Operator o])
      refine ⟨StackToken.Operator o :: popped, ?_, ?_, ?_, ?_⟩
      · simp only [popOps, List.cons_append]
        exact congrArg _ h1
      · simp only [popOps]
        rw [h2]
        simp [stackOut]
      · intro x hx
        rcases List.mem_cons.mp hx with rfl | hx2
        · exact ⟨o, rfl⟩
        · exact h3 x hx2
      · simp only [popOps]
        exact h4
    | LeftParen p => refine ⟨[], ?_, ?_, ?_, ?_⟩ <;> simp [popOps]
    | Function f => refine ⟨[], ?_, ?_, ?_, ?_⟩ <;> simp [popOps]

/-- Helper: decomposition of a `popWhileHigher` run: some operator prefix is
popped and emitted in order. -/
theorem popWhileHigher_decomp {prec : O → Nat} {la : O → Bool} {o1 : O} :
    ∀ (stack : List (StackToken F O)) (out : List (OutputToken V F O)),
      ∃ popped, stack = popped ++ (popWhileHigher prec la o1 stack out).1 ∧
        (popWhileHigher prec la o1 stack out).2 = out ++ popped.filterMap stackOut ∧
        (∀ t ∈ popped, ∃ o, t = StackToken.Operator o) := by
  intro stack
  induction stack with
  | nil =>
    intro out
    refine ⟨[], ?_, ?_, ?_⟩ <;> simp [popWhileHigher]
  | cons t rest ih =>
    intro out
    cases t with
    | Operator o2 =>
      by_cases hc : prec o2 > prec o1 ∨ (prec o1 = prec o2 ∧ la o1 = true)
      · obtain ⟨popped, h1, h2, h3⟩ := ih (out ++ [OutputToken.Operator o2])
        refine ⟨StackToken.Operator o2 :: popped, ?_, ?_, ?_⟩
        · rw [popWhileHigher, if_pos hc]
          simp only [List.cons_append]
          exact congrArg _ h1
        · rw [popWhileHigher, if_pos hc, h2]
          simp [stackOut]
        · intro x hx
          rcases List.mem_cons.mp hx with rfl | hx2
          · exact ⟨o2, rfl⟩
          · exact h3 x hx2
      · refine ⟨[], ?_, ?_, ?_⟩
        · rw [popWhileHigher, if_neg hc]
          simp
        · rw [popWhileHigher, if_neg hc]
          simp
        · simp
    | LeftParen p => refine ⟨[], ?_, ?_, ?_⟩ <;> simp [popWhileHigher]
    | Function f => refine ⟨[], ?_, ?_, ?_⟩ <;> simp [popWhileHigher]

/-- Helper: `popOps` preserves goodness. -/
theorem good_popOps {stack : List (StackToken F O)} {k : Nat}
    (hg : GoodStack stack k) (out : List (OutputToken V F O)) :
    GoodStack (popOps stack out).1 k := by
  obtain ⟨popped, h1, _, h3, _⟩ := popOps_decomp stack out
  exact good_of_ops_prefix popped _ k h3 (h1 ▸ hg)

/-- Helper: `popWhileHigher` preserves goodness. -/
theorem good_popWhileHigher {prec : O → Nat} {la : O → Bool} {o1 : O}
    {stack : List (StackToken F O)} {k : Nat}
    (hg : GoodStack stack k) (out : List (OutputToken V F O)) :
    GoodStack (popWhileHigher prec la o1 stack out).1 k := by
  obtain ⟨popped, h1, _, h3⟩ := popWhileHigher_decomp stack out
  exact good_of_ops_prefix popped _ k h3 (h1 ▸ hg)

/-- Helper: on a good stack with an open parenthesis, the `RightParen`
processing step closes exactly that parenthesis and leaves a good stack. -/
theorem good_rightParenStep {stack : List (StackToken F O)} {k : Nat}
    (hg : GoodStack stack (k + 1)) (out : List (OutputToken V F O)) :
    GoodStack (rightParenStep stack out).1 k := by
  obtain ⟨popped, h1, h2, h3, h4⟩ := popOps_decomp stack out
  have hg1 : GoodStack (popOps stack out).1 (k + 1) :=
    good_of_ops_prefix popped _ _ h3 (h1 ▸ hg)
  simp only [rightParenStep]
  generalize hX : (popOps stack out).1 = X at hg1 h4 ⊢
  cases hg1 with
  | op o h => exact absurd (List.head?_cons) (h4 o)
  | paren p h =>
    simp only [List.tail_cons]
    cases h with
    | nil => exact GoodStack.nil
    | op o h2 => exact GoodStack.op o h2
    | paren p2 h2 => exact GoodStack.paren p2 h2
    | parenFn p2 f2 h2 => exact GoodStack.parenFn p2 f2 h2
  | parenFn p f h =>
    simp only [List.tail_cons]
    exact h

/-- Helper for C1: over balanced, well-nested input whose functions are always
followed by a left parenthesis, the conversion loop succeeds from any good
stack whose marker count matches the parenthesis counter. -/
theorem toPostfixFrom_ok_of_good {prec : O → Nat} {la : O → Bool} :
    ∀ (n : Nat) (ts : List (InputToken V F O)), ts.length ≤ n →
      ∀ (pos k : Nat) (stack : List (StackToken F O)) (out : List (OutputToken V F O)),
        GoodStack stack k → dyck k ts = true → funLP ts = true →
        ∃ r, toPostfixFrom prec la ts pos (k : Int) stack out = Except.ok r := by
  intro n
  induction n with
  | zero =>
    intro ts hlen pos k stack out hg hd _
    have hts : ts = [] := List.eq_nil_of_length_eq_zero (Nat.le_zero.mp hlen)
    subst hts
    have hk : k = 0 := by simpa [dyck] using hd
    subst hk
    rw [toPostfixFrom]
    exact good_drain hg rfl out
  | succ n ih =>
    intro ts hlen pos k stack out hg hd hf
    cases ts with
    | nil =>
      have hk : k = 0 := by simpa [dyck] using hd
      subst hk
      rw [toPostfixFrom]
      exact good_drain hg rfl out
    | cons t rest =>
      have hlen2 : rest.length ≤ n := by simp at hlen; omega
      cases t with
      | Value v =>
        rw [toPostfixFrom]
        exact ih rest hlen2 (pos + 1) k stack _ hg
          (by simpa [dyck] using hd) (by simpa [funLP] using hf)
      | LeftParen =>
        rw [toPostfixFrom, show (k : Int) + 1 = ((k + 1 : Nat) : Int) by push_cast; ring]
        exact ih rest hlen2 (pos + 1) (k + 1) _ out (GoodStack.paren pos hg)
          (by simpa [dyck] using hd) (by simpa [funLP] using hf)
      | RightParen =>
        cases k with
        | zero => simp [dyck] at hd
        | succ k2 =>
          rw [toPostfixFrom, if_neg (by exact_mod_cast Nat.succ_ne_zero k2),
            show ((k2 + 1 : Nat) : Int) - 1 = (k2 : Int) by push_cast; ring]
          exact ih rest hlen2 (pos + 1) k2 _ _ (good_rightParenStep hg out)
            (by simpa [dyck] using hd) (by simpa [funLP] using hf)
      | ArgSeperator =>
        rw [toPostfixFrom]
        exact ih rest hlen2 (pos + 1) k _ _ (good_popOps hg out)
          (by simpa [dyck] using hd) (by simpa [funLP] using hf)
      | Operator o1 =>
        rw [toPostfixFrom]
        exact ih rest hlen2 (pos + 1) k _ _
          (GoodStack.op o1 (good_popWhileHigher hg out))
          (by simpa [dyck] using hd) (by simpa [funLP] using hf)
      | Function f =>
        rcases rest with _ | ⟨t2, rest2⟩
        · simp [funLP] at hf
        · cases t2 with
          | LeftParen =>
            have hlen3 : rest2.length ≤ n := by simp at hlen; omega
            rw [toPostfixFrom, toPostfixFrom,
              show (k : Int) + 1 = ((k + 1 : Nat) : Int) by push_cast; ring]
            exact ih rest2 hlen3 (pos + 1 + 1) (k + 1) _ out
              (GoodStack.parenFn (pos + 1) f hg)
              (by simpa [dyck] using hd) (by simpa [funLP] using hf)
          | Value v => simp [funLP] at hf
          | RightParen => simp [funLP] at hf
          | Function f2 => simp [funLP] at hf
          | ArgSeperator => simp [funLP] at hf
          | Operator o => simp [funLP] at hf

/-- C1 counterexample: the claim fails as stated.  The input
`LeftParen, Function(f), RightParen` has balanced, well-nested parentheses, yet
` to_postfix` returns `ParenMissmatchError` at position 0: the unconditional
`stack.pop()` in the `RightParen` arm discards the pending function instead of
the left-paren marker, which then remains on the stack at end of input. -/
theorem c1_counterexample :
    dyck 0 ([InputToken.LeftParen, InputToken.Function "f", InputToken.RightParen] :
        List (InputToken Nat String MathOperator)) = true ∧
      to_postfix MathOperator.precedence MathOperator.is_left_associative
        ([InputToken.LeftParen, InputToken.Function "f", InputToken.RightParen] :
          List (InputToken Nat String MathOperator)) = Except.error ⟨0⟩ :=
  ⟨rfl, rfl⟩

/-- C1 amended: for every input whose parentheses are balanced and well nested
and in which every `Function` token is immediately followed by a `LeftParen`,
` to_postfix` returns `Ok` (and `ParenMissmatchError` is the only error the
engine can produce, by its result type). -/
theorem c1_balanced_funparen_ok (prec : O → Nat) (la : O → Bool)
    (ts : List (InputToken V F O)) (hd : dyck 0 ts = true) (hf : funLP ts = true) :
    ∃ r, to_postfix prec la ts = Except.ok r := by
  have h := @toPostfixFrom_ok_of_good V F O prec la ts.length ts (le_refl _)
    0 0 [] [] GoodStack.nil hd hf
  simpa [ to_postfix] using h

/-- Witness for C1: the amended theorem applied to the concrete input
`Function(sin), LeftParen, Value(1), RightParen`, with both hypotheses
discharged by computation. -/
theorem c1_witness :
    (dyck 0 ([InputToken.Function "sin", InputToken.LeftParen, InputToken.Value 1,
        InputToken.RightParen] : List (InputToken Nat String MathOperator)) = true ∧
      funLP ([InputToken.Function "sin", InputToken.LeftParen, InputToken.Value 1,
        InputToken.RightParen] : List (InputToken Nat String MathOperator)) = true) ∧
      ∃ r, to_postfix MathOperator.precedence MathOperator.is_left_associative
        ([InputToken.Function "sin", InputToken.LeftParen, InputToken.Value 1,
          InputToken.RightParen] : List (InputToken Nat String MathOperator)) =
          Except.ok r :=
  ⟨⟨rfl, rfl⟩, c1_balanced_funparen_ok MathOperator.precedence
    MathOperator.is_left_associative _ rfl rfl⟩

/-- Helper: marker count of an empty stack. -/
theorem countMarkers_nil : countMarkers ([] : List (StackToken F O)) = 0 := rfl

/-- Helper: a left-paren marker adds one to the marker count. -/
theorem countMarkers_cons_marker (p : Nat) (s : List (StackToken F O)) :
    countMarkers (StackToken.LeftParen p :: s) = countMarkers s + 1 := by
  simp [countMarkers, isMarker, List.countP_cons]

/-- Helper: a pending function does not change the marker count. -/
theorem countMarkers_cons_function (f : F) (s : List (StackToken F O)) :
    countMarkers (StackToken.Function f :: s) = countMarkers s := by
  simp [countMarkers, isMarker, List.countP_cons]

/-- Helper: a pending operator does not change the marker count. -/
theorem countMarkers_cons_operator (o : O) (s : List (StackToken F O)) :
    countMarkers (StackToken.Operator o :: s) = countMarkers s := by
  simp [countMarkers, isMarker, List.countP_cons]

/-- Helper: marker count distributes over append. -/
theorem countMarkers_append (s1 s2 : List (StackToken F O)) :
    countMarkers (s1 ++ s2) = countMarkers s1 + countMarkers s2 := by
  simp [countMarkers, List.countP_append]

/-- Helper: a list of operators carries no marker. -/
theorem countMarkers_ops_zero {popped : List (StackToken F O)}
    (h : ∀ t ∈ popped, ∃ o, t = StackToken.Operator o) : countMarkers popped = 0 := by
  simp only [countMarkers]
  rw [List.countP_eq_zero]
  intro a ha
  obtain ⟨o, rfl⟩ := h a ha
  simp [isMarker]

/-- Helper: `popOps`, described as a function value: it splits the stack after
an operator prefix and emits that prefix. -/
theorem popOps_pair (stack : List (StackToken F O)) (out : List (OutputToken V F O)) :
    ∃ popped s1, stack = popped ++ s1 ∧
      popOps stack out = (s1, out ++ popped.filterMap stackOut) ∧
      (∀ t ∈ popped, ∃ o, t = StackToken.Operator o) ∧
      ∀ o, s1.head? ≠ some (StackToken.Operator o) := by
  obtain ⟨popped, h1, h2, h3, h4⟩ := popOps_decomp stack out
  exact ⟨popped, (popOps stack out).1, h1, by rw [← h2], h3, h4⟩

/-- Helper: `popWhileHigher`, described as a function value. -/
theorem popWhileHigher_pair {prec : O → Nat} {la : O → Bool} {o1 : O}
    (stack : List (StackToken F O)) (out : List (OutputToken V F O)) :
    ∃ popped s1, stack = popped ++ s1 ∧
      popWhileHigher prec la o1 stack out = (s1, out ++ popped.filterMap stackOut) ∧
      ∀ t ∈ popped, ∃ o, t = StackToken.Operator o := by
  obtain ⟨popped, h1, h2, h3⟩ := popWhileHigher_decomp stack out
  exact ⟨popped, (popWhileHigher prec la o1 stack out).1, h1, by rw [← h2], h3⟩

/-- Helper: exhaustive description of the `RightParen` processing step: after
the operator prefix is flushed, the unconditional `stack.pop()` removes the top
entry — a left-paren marker when one is on top, otherwise a pending function —
and a function ending up on top afterwards is emitted. -/
theorem rightParenStep_cases (stack : List (StackToken F O)) (out : List (OutputToken V F O)) :
    ∃ popped s1, stack = popped ++ s1 ∧
      (∀ t ∈ popped, ∃ o, t = StackToken.Operator o) ∧
      ( (s1 = [] ∧
          rightParenStep stack out = ([], out ++ popped.filterMap stackOut)) ∨
        (∃ p f s3, s1 = StackToken.LeftParen p :: StackToken.Function f :: s3 ∧
          rightParenStep stack out =
            (s3, out ++ popped.filterMap stackOut ++ [OutputToken.Function f])) ∨
        (∃ p s2, s1 = StackToken.LeftParen p :: s2 ∧
          rightParenStep stack out = (s2, out ++ popped.filterMap stackOut)) ∨
        (∃ f f2 s3, s1 = StackToken.Function f :: StackToken.Function f2 :: s3 ∧
          rightParenStep stack out =
            (s3, out ++ popped.filterMap stackOut ++ [OutputToken.Function f2])) ∨
        (∃ f s2, s1 = StackToken.Function f :: s2 ∧
          rightParenStep stack out = (s2, out ++ popped.filterMap stackOut)) ) := by
  obtain ⟨popped, s1, h1, hpair, h3, h4⟩ := popOps_pair stack out
  refine ⟨popped, s1, h1, h3, ?_⟩
  rcases s1 with _ | ⟨hd, tl⟩
  · exact Or.inl ⟨rfl, by simp [rightParenStep, hpair]⟩
  · cases hd with
    | Operator o => exact absurd List.head?_cons (h4 o)
    | LeftParen p =>
      rcases tl with _ | ⟨hd2, tl2⟩
      · exact Or.inr (Or.inr (Or.inl ⟨p, [], rfl, by simp [rightParenStep, hpair]⟩))
      · cases hd2 with
        | Function f =>
          exact Or.inr (Or.inl ⟨p, f, tl2, rfl, by simp [rightParenStep, hpair]⟩)
        | LeftParen p2 =>
          exact Or.inr (Or.inr (Or.inl ⟨p, StackToken.LeftParen p2 :: tl2, rfl,
            by simp [rightParenStep, hpair]⟩))
        | Operator o2 =>
          exact Or.inr (Or.inr (Or.inl ⟨p, StackToken.Operator o2 :: tl2, rfl,
            by simp [rightParenStep, hpair]⟩))
    | Function f =>
      rcases tl with _ | ⟨hd2, tl2⟩
      · exact Or.inr (Or.inr (Or.inr (Or.inr ⟨f, [], rfl,
          by simp [rightParenStep, hpair]⟩)))
      · cases hd2 with
        | Function f2 =>
          exact Or.inr (Or.inr (Or.inr (Or.inl ⟨f, f2, tl2, rfl,
            by simp [rightParenStep, hpair]⟩)))
        | LeftParen p2 =>
          exact Or.inr (Or.inr (Or.inr (Or.inr ⟨f, StackToken.LeftParen p2 :: tl2, rfl,
            by simp [rightParenStep, hpair]⟩)))
        | Operator o2 =>
          exact Or.inr (Or.inr (Or.inr (Or.inr ⟨f, StackToken.Operator o2 :: tl2, rfl,
            by simp [rightParenStep, hpair]⟩)))

/-- Helper: a stack holding at least one marker cannot drain without error. -/
theorem drainStack_error_of_marker :
    ∀ (s : List (StackToken F O)) (out : List (OutputToken V F O)),
      0 < countMarkers s → ∃ e, drainStack s out = Except.error e := by
  intro s
  induction s with
  | nil => intro out h; simp [countMarkers] at h
  | cons t rest ih =>
    intro out h
    cases t with
    | LeftParen p => exact ⟨⟨p⟩, rfl⟩
    | Function f =>
      rw [countMarkers_cons_function] at h
      exact ih _ h
    | Operator o =>
      rw [countMarkers_cons_operator] at h
      exact ih _ h

/-- Helper: the value a successful drain produces. -/
theorem drainStack_ok_eq :
    ∀ (s : List (StackToken F O)) (out r : List (OutputToken V F O)),
      drainStack s out = Except.ok r → r = out ++ s.filterMap stackOut := by
  intro s
  induction s with
  | nil =>
    intro out r h
    injection h with h2
    simp [← h2]
  | cons t rest ih =>
    intro out r h
    cases t with
    | LeftParen p => exact absurd h (by simp [drainStack])
    | Function f =>
      rw [drainStack] at h
      rw [ih _ _ h]
      simp [stackOut]
    | Operator o =>
      rw [drainStack] at h
      rw [ih _ _ h]
      simp [stackOut]

/-- Helper: when the parenthesis counter undercounts the markers on the stack
(which happens after `stack.pop()` has discarded a pending function in place of
a marker), the conversion can only end in an error: some marker survives to the
end of the input. -/
theorem toPostfixFrom_error_of_slack {prec : O → Nat} {la : O → Bool} :
    ∀ (ts : List (InputToken V F O)) (pos : Nat) (pc : Int)
      (stack : List (StackToken F O)) (out : List (OutputToken V F O)),
      0 ≤ pc → pc < (countMarkers stack : Int) →
      ∃ e, toPostfixFrom prec la ts pos pc stack out = Except.error e := by
  intro ts
  induction ts with
  | nil =>
    intro pos pc stack out h0 h1
    rw [toPostfixFrom]
    exact drainStack_error_of_marker stack out (by omega)
  | cons t rest ih =>
    intro pos pc stack out h0 h1
    cases t with
    | Value v =>
      rw [toPostfixFrom]
      exact ih (pos + 1) pc stack _ h0 h1
    | Function f =>
      rw [toPostfixFrom]
      exact ih (pos + 1) pc _ _ h0 (by rw [countMarkers_cons_function]; exact h1)
    | LeftParen =>
      rw [toPostfixFrom]
      exact ih (pos + 1) (pc + 1) _ _ (by omega)
        (by rw [countMarkers_cons_marker]; push_cast; omega)
    | ArgSeperator =>
      rw [toPostfixFrom]
      obtain ⟨popped, s1, hsplit, hpair, hops, _⟩ := popOps_pair stack out
      rw [hpair]
      have hcm : countMarkers s1 = countMarkers stack := by
        rw [hsplit, countMarkers_append, countMarkers_ops_zero hops]
        omega
      exact ih (pos + 1) pc s1 _ h0 (by rw [hcm]; exact h1)
    | Operator o1 =>
      rw [toPostfixFrom]
      obtain ⟨popped, s1, hsplit, hpair, hops⟩ := popWhileHigher_pair stack out
      rw [hpair]
      have hcm : countMarkers s1 = countMarkers stack := by
        rw [hsplit, countMarkers_append, countMarkers_ops_zero hops]
        omega
      exact ih (pos + 1) pc _ _ h0
        (by rw [countMarkers_cons_operator, hcm]; exact h1)
    | RightParen =>
      by_cases hpc : pc = 0
      · exact ⟨⟨pos⟩, by rw [toPostfixFrom, if_pos hpc]⟩
      · rw [toPostfixFrom, if_neg hpc]
        obtain ⟨popped, s1, hsplit, hops, hcases⟩ := rightParenStep_cases stack out
        have hcm : countMarkers stack = countMarkers s1 := by
          rw [hsplit, countMarkers_append, countMarkers_ops_zero hops]
          omega
        rcases hcases with ⟨hs1, hrps⟩ | ⟨p, f, s3, hs1, hrps⟩ | ⟨p, s2, hs1, hrps⟩ |
          ⟨f, f2, s3, hs1, hrps⟩ | ⟨f, s2, hs1, hrps⟩
        · rw [hs1, countMarkers_nil] at hcm
          omega
        · rw [hrps]
          refine ih (pos + 1) (pc - 1) s3 _ (by omega) ?_
          rw [hs1, countMarkers_cons_marker, countMarkers_cons_function] at hcm
          omega
        · rw [hrps]
          refine ih (pos + 1) (pc - 1) s2 _ (by omega) ?_
          rw [hs1, countMarkers_cons_marker] at hcm
          omega
        · rw [hrps]
          refine ih (pos + 1) (pc - 1) s3 _ (by omega) ?_
          rw [hs1, countMarkers_cons_function, countMarkers_cons_function] at hcm
          omega
        · rw [hrps]
          refine ih (pos + 1) (pc - 1) s2 _ (by omega) ?_
          rw [hs1, countMarkers_cons_function] at hcm
          omega

/-- Helper: emitting an element now or keeping it for later yields permuted
output. -/
theorem perm_emit_shift {α : Type} (a : α) (xs S L : List α) :
    ((xs ++ [a]) ++ S ++ L).Perm ((xs ++ S) ++ (a :: L)) := by
  have h1 : (xs ++ [a]) ++ S ++ L = xs ++ (a :: (S ++ L)) := by simp
  have h2 : (xs ++ S) ++ (a :: L) = xs ++ (S ++ (a :: L)) := by simp
  rw [h1, h2]
  exact List.Perm.append_left xs List.perm_middle.symm

/-- Helper: an element pending on the stack may permute past the stack tail. -/
theorem perm_stack_shift {α : Type} (a : α) (xs S L : List α) :
    ((xs ++ (a :: S)) ++ L).Perm ((xs ++ S) ++ (a :: L)) := by
  have h1 : (xs ++ (a :: S)) ++ L = xs ++ (a :: (S ++ L)) := by simp
  have h2 : (xs ++ S) ++ (a :: L) = xs ++ (S ++ (a :: L)) := by simp
  rw [h1, h2]
  exact List.Perm.append_left xs List.perm_middle.symm

/-- Helper for C5: whenever the conversion loop succeeds from a state whose
parenthesis counter does not exceed the marker count, the result is a
permutation of the emitted output so far, the emittable pending stack entries,
and the value, function and operator tokens of the remaining input. -/
theorem toPostfixFrom_conservation {prec : O → Nat} {la : O → Bool} :
    ∀ (ts : List (InputToken V F O)) (pos : Nat) (pc : Int)
      (stack : List (StackToken F O)) (out res : List (OutputToken V F O)),
      0 ≤ pc → pc ≤ (countMarkers stack : Int) →
      toPostfixFrom prec la ts pos pc stack out = Except.ok res →
      res.Perm (out ++ stack.filterMap stackOut ++ ts.filterMap inpToOut) := by
  intro ts
  induction ts with
  | nil =>
    intro pos pc stack out res h0 h1 h
    rw [toPostfixFrom] at h
    rw [drainStack_ok_eq stack out res h]
    simp
  | cons t rest ih =>
    intro pos pc stack out res h0 h1 h
    cases t with
    | Value v =>
      rw [toPostfixFrom] at h
      have hperm := ih (pos + 1) pc stack _ res h0 h1 h
      simp only [List.filterMap_cons, inpToOut]
      exact hperm.trans (perm_emit_shift _ _ _ _)
    | LeftParen =>
      rw [toPostfixFrom] at h
      have hperm := ih (pos + 1) (pc + 1) _ _ res (by omega)
        (by rw [countMarkers_cons_marker]; push_cast; omega) h
      simp only [List.filterMap_cons, inpToOut, stackOut] at hperm ⊢
      exact hperm
    | Function f =>
      rw [toPostfixFrom] at h
      have hperm := ih (pos + 1) pc _ _ res h0
        (by rw [countMarkers_cons_function]; exact h1) h
      simp only [List.filterMap_cons, inpToOut, stackOut] at hperm ⊢
      exact hperm.trans (perm_stack_shift _ _ _ _)
    | ArgSeperator =>
      rw [toPostfixFrom] at h
      obtain ⟨popped, s1, hsplit, hpair, hops, _⟩ := popOps_pair stack out
      rw [hpair] at h
      have hcm : countMarkers s1 = countMarkers stack := by
        rw [hsplit, countMarkers_append, countMarkers_ops_zero hops]
        omega
      have hperm := ih (pos + 1) pc s1 _ res h0 (by rw [hcm]; exact h1) h
      have hfm : stack.filterMap stackOut =
          popped.filterMap stackOut ++ (s1.filterMap stackOut : List (OutputToken V F O)) := by
        rw [hsplit, List.filterMap_append]
      rw [hfm]
      simp only [List.filterMap_cons, inpToOut] at hperm ⊢
      simpa [List.append_assoc] using hperm
    | Operator o1 =>
      rw [toPostfixFrom] at h
      obtain ⟨popped, s1, hsplit, hpair, hops⟩ := popWhileHigher_pair stack out
      rw [hpair] at h
      have hcm : countMarkers s1 = countMarkers stack := by
        rw [hsplit, countMarkers_append, countMarkers_ops_zero hops]
        omega
      have hperm := ih (pos + 1) pc _ _ res h0
        (by rw [countMarkers_cons_operator, hcm]; exact h1) h
      have hfm : stack.filterMap stackOut =
          popped.filterMap stackOut ++ (s1.filterMap stackOut : List (OutputToken V F O)) := by
        rw [hsplit, List.filterMap_append]
      rw [hfm]
      simp only [List.filterMap_cons, inpToOut, stackOut] at hperm ⊢
      have hstep := perm_stack_shift (OutputToken.Operator o1 : OutputToken V F O)
        (out ++ popped.filterMap stackOut) (s1.filterMap stackOut)
        (rest.filterMap inpToOut)
      refine (hperm.trans ?_)
      simpa [List.append_assoc] using hstep
    | RightParen =>
      by_cases hpc : pc = 0
      · rw [toPostfixFrom, if_pos hpc] at h
        exact absurd h (by simp)
      · rw [toPostfixFrom, if_neg hpc] at h
        obtain ⟨popped, s1, hsplit, hops, hcases⟩ := rightParenStep_cases stack out
        have hcm : countMarkers stack = countMarkers s1 := by
          rw [hsplit, countMarkers_append, countMarkers_ops_zero hops]
          omega
        have hfm : stack.filterMap stackOut =
            popped.filterMap stackOut ++ (s1.filterMap stackOut : List (OutputToken V F O)) := by
          rw [hsplit, List.filterMap_append]
        rcases hcases with ⟨hs1, hrps⟩ | ⟨p, f, s3, hs1, hrps⟩ | ⟨p, s2, hs1, hrps⟩ |
          ⟨f, f2, s3, hs1, hrps⟩ | ⟨f, s2, hs1, hrps⟩
        · rw [hs1, countMarkers_nil] at hcm
          omega
        · rw [hrps] at h
          rw [hs1, countMarkers_cons_marker, countMarkers_cons_function] at hcm
          have hperm := ih (pos + 1) (pc - 1) s3 _ res (by omega) (by omega) h
          rw [hfm, hs1]
          simp only [List.filterMap_cons, inpToOut, stackOut] at hperm ⊢
          simpa [List.append_assoc] using hperm
        · rw [hrps] at h
          rw [hs1, countMarkers_cons_marker] at hcm
          have hperm := ih (pos + 1) (pc - 1) s2 _ res (by omega) (by omega) h
          rw [hfm, hs1]
          simp only [List.filterMap_cons, inpToOut, stackOut] at hperm ⊢
          simpa [List.append_assoc] using hperm
        · rw [hrps] at h
          rw [hs1, countMarkers_cons_function, countMarkers_cons_function] at hcm
          obtain ⟨e, he⟩ := toPostfixFrom_error_of_slack rest (pos + 1) (pc - 1) s3
            (out ++ popped.filterMap stackOut ++ [OutputToken.Function f2])
            (by omega) (by omega)
          rw [he] at h
          exact absurd h (by simp)
        · rw [hrps] at h
          rw [hs1, countMarkers_cons_function] at hcm
          obtain ⟨e, he⟩ := toPostfixFrom_error_of_slack rest (pos + 1) (pc - 1) s2
            (out ++ popped.filterMap stackOut) (by omega) (by omega)
          rw [he] at h
          exact absurd h (by simp)

/-- C5: whenever ` to_postfix` succeeds, the output is a permutation of the
input's `Value`, `Function` and `Operator` tokens — each appears exactly once —
and the output is never longer than the input (delimiters are dropped; the
output token type cannot even represent them). -/
theorem c5_conservation (prec : O → Nat) (la : O → Bool)
    (ts : List (InputToken V F O)) (res : List (OutputToken V F O))
    (h : to_postfix prec la ts = Except.ok res) :
    res.Perm (ts.filterMap inpToOut) ∧ res.length ≤ ts.length := by
  have hperm := toPostfixFrom_conservation ts 0 0 [] [] res (le_refl 0)
    (by simp [countMarkers]) h
  simp only [List.filterMap_nil, List.nil_append, List.append_nil] at hperm
  refine ⟨hperm, ?_⟩
  calc res.length = (ts.filterMap inpToOut).length := hperm.length_eq
  _ ≤ ts.length := List.length_filterMap_le _ _

/-- Witness for C5: the theorem applied to `1 + 2`, whose conversion is
computed and whose conclusion is the concrete permutation and length bound. -/
theorem c5_witness :
    ([OutputToken.Value 1, OutputToken.Value 2,
        OutputToken.Operator MathOperator.Add] : List (OutputToken Nat String MathOperator)).Perm
      (([InputToken.Value 1, InputToken.Operator MathOperator.Add, InputToken.Value 2] :
        List (InputToken Nat String MathOperator)).filterMap inpToOut) ∧
    ([OutputToken.Value 1, OutputToken.Value 2,
        OutputToken.Operator MathOperator.Add] : List (OutputToken Nat String MathOperator)).length ≤
      ([InputToken.Value 1, InputToken.Operator MathOperator.Add, InputToken.Value 2] :
        List (InputToken Nat String MathOperator)).length :=
  c5_conservation MathOperator.precedence MathOperator.is_left_associative
    [InputToken.Value 1, InputToken.Operator MathOperator.Add, InputToken.Value 2]
    [OutputToken.Value 1, OutputToken.Value 2, OutputToken.Operator MathOperator.Add] rfl

end GSY
